import Mathlib

/-!
Shallow embedding of the dependency-detection and graph-query engine of
`file_rank_simple.py` (classes `DependencyDetector` and `FileRankManager`).

Modelling conventions:
* All paths crossing the engine boundary are absolute, canonicalized POSIX
  paths (spec §6), so `os.path.abspath` is modelled as the identity on them.
* The filesystem is an explicit parameter `FS`: an existence predicate plus
  the result of reading-and-parsing a Python file (`ast.parse` and the
  `ast.walk` collection of `import`/`from ... import` module names is
  abstracted as the per-path list of collected dotted module names, or a
  parse failure).  The JS/C++/Rust handlers are likewise abstracted as an
  uninterpreted per-path handler result, since no claim concerns their
  internals; a raised exception in any handler is an `Except.error`.
* Python `dict`s are modelled as association lists in insertion order;
  Python `list.remove` is `List.erase` (first occurrence).
-/

/-- Index of the last occurrence of `c` in `cs`, if any. -/
def lastIdxOf (c : Char) (cs : List Char) : Option Nat :=
  ((cs.enum.filter (fun p => p.2 = c)).getLast?).map (·.1)

/-- Split a character list at every occurrence of `c` (Python `str.split`). -/
def splitChar (c : Char) : List Char → List (List Char)
  | [] => [[]]
  | x :: xs =>
    match splitChar c xs with
    | [] => [[]]
    | h :: t => if x = c then [] :: h :: t else (x :: h) :: t

/-- Python `str.split(sep)` for a one-character separator. -/
def splitStr (c : Char) (s : String) : List String :=
  (splitChar c s.data).map (fun cs => ⟨cs⟩)

/-- Python `sep.join(parts)` for a one-character separator. -/
def joinWith (c : Char) : List String → String
  | [] => ""
  | [x] => x
  | x :: y :: t => x ++ ⟨[c]⟩ ++ joinWith c (y :: t)

/-- Python `str.endswith`. -/
def strEndsWith (s suffix : String) : Bool :=
  suffix.data.isSuffixOf s.data

/-- ASCII lower-casing of one character (what Python `str.lower` does on the
ASCII file extensions handled by the engine). -/
def lowerChar (c : Char) : Char :=
  if 'A' ≤ c ∧ c ≤ 'Z' then Char.ofNat (c.toNat + 32) else c

/-- ASCII `str.lower`. -/
def lowerStr (s : String) : String := ⟨s.data.map lowerChar⟩

/-- `os.path.basename` for POSIX paths: everything after the last `/`. -/
def baseName (p : String) : String :=
  let cs := p.data
  match lastIdxOf '/' cs with
  | none => p
  | some k => ⟨cs.drop (k + 1)⟩

/-- `os.path.splitext`: split off the extension at the last dot of the last
component, provided some non-dot character precedes that dot within the
component (so `.bashrc` has no extension). -/
def splitExt (p : String) : String × String :=
  let cs := p.data
  match lastIdxOf '.' cs with
  | none => (p, "")
  | some d =>
    let fstart : Nat :=
      match lastIdxOf '/' cs with
      | none => 0
      | some k => k + 1
    if fstart ≤ d ∧ ((cs.drop fstart).take (d - fstart)).any (fun c => c ≠ '.') then
      (⟨cs.take d⟩, ⟨cs.drop d⟩)
    else (p, "")

/-- `os.path.dirname` for POSIX paths. -/
def dirName (p : String) : String :=
  let cs := p.data
  match lastIdxOf '/' cs with
  | none => ""
  | some k =>
    let head := cs.take (k + 1)
    if head.all (fun c => c = '/') then ⟨head⟩
    else ⟨(head.reverse.dropWhile (fun c => c = '/')).reverse⟩

/-- `os.path.join dir rel` for a relative `rel` (the only use in the engine). -/
def joinPath (d r : String) : String :=
  if d = "" then r else if strEndsWith d "/" then d ++ r else d ++ "/" ++ r

/-- `os.path.abspath`, the identity on the already-absolute canonical paths
used throughout the engine (spec §6). -/
def absPath (p : String) : String := p

/-- `sorted(list(set(xs)))`: lexicographically sorted distinct elements.
The dedup keeps the last occurrence; since a Python `set` forgets order and
multiplicity, any choice of representatives is faithful. -/
def dedupList : List String → List String
  | [] => []
  | x :: xs => if xs.contains x then dedupList xs else x :: dedupList xs

/-- Stable insertion (used to model Python's stable `sorted`). -/
def insLe (x : String) : List String → List String
  | [] => [x]
  | y :: ys => if x ≤ y then x :: y :: ys else y :: insLe x ys

/-- Stable sort of strings, ascending (models Python `sorted` on `str`). -/
def sortStrings (l : List String) : List String := l.foldr insLe []

/-- `sorted(list(set(xs)))` as used by `detect_dependencies`. -/
def dedupSort (l : List String) : List String := sortStrings (dedupList l)

/-- The external environment of the engine: file existence, the abstracted
Python parse (collected dotted module names of `import`/`from` statements in
`ast.walk` order, or a parse failure), and the abstracted result of the
JS/C++/Rust handlers `(ext, path) ↦ (certain, possible)` or an exception. -/
structure FS where
  fexists : String → Bool
  pyParse : String → Except Unit (List String)
  otherLang : String → String → Except Unit (List String × List String)

/-- The extensions registered in `DependencyDetector.language_handlers`. -/
def handledExts : List String :=
  [".py", ".js", ".jsx", ".ts", ".tsx",
   ".c", ".cpp", ".cc", ".cxx", ".h", ".hpp", ".hxx", ".rs"]

/-- Candidate local file for a Python dotted module name relative to the
importing file: dots become path separators, under the importing file's
directory, with extension `.py` (lines 163-170 of the source; the extension
loop iterates over the one-element list `['.py']`). -/
def pyTarget (filePath m : String) : String :=
  absPath (joinPath (dirName filePath) (joinWith '/' (splitStr '.' m) ++ ".py"))

/-- One iteration of the Python resolution loop (lines 162-175): when the
`<segments>.py` candidate of the module name exists, append it to the
certain list and remove the module's first occurrence from the possible
list (Python `list.remove`); otherwise leave the accumulator alone. -/
def pyStep (fs : FS) (fp : String) (acc : List String × List String)
    (m : String) : List String × List String :=
  if fs.fexists (pyTarget fp m) then (acc.1 ++ [pyTarget fp m], acc.2.erase m)
  else acc

/-- `DependencyDetector._detect_python_dependencies`: on parse failure both
lists stay empty (the exception is caught); otherwise the resolution loop
walks the collected module names (iterating over a copy while the possible
list is edited in place). -/
def detect_python_dependencies (fs : FS) (filePath : String) :
    List String × List String :=
  match fs.pyParse filePath with
  | .error _ => ([], [])
  | .ok modules => modules.foldl (pyStep fs filePath) ([], modules)

/-- One tracked file matches a possible-import token iff the tracked file's
stem equals the token or the token's last dot-segment, or the token ends
with (or equals) the tracked file's basename (lines 101-121). -/
def tokenMatches (dep t : String) : Bool :=
  let bn := baseName t
  let stem := (splitExt bn).1
  let lastPart := (splitStr '.' dep).getLastD ""
  (stem = dep || stem = lastPart) || (strEndsWith dep bn || dep = bn)

/-- One iteration of the cross-reference loop: the first tracked file (in
store order) matching the token is appended to the certain list; an
unmatched token is kept as possible. -/
def crStep (tracked : List String) (acc : List String × List String)
    (dep : String) : List String × List String :=
  match tracked.find? (tokenMatches dep) with
  | some t => (acc.1 ++ [t], acc.2)
  | none => (acc.1, acc.2 ++ [dep])

/-- The cross-reference matching pass (lines 93-124): fold the matching
step over the possible tokens in order, starting from the certain list
produced by per-language resolution. -/
def crossRef (tracked : List String) (certain possible : List String) :
    List String × List String :=
  possible.foldl (crStep tracked) (certain, [])

/-- Result of `detect_dependencies`: the `imports` / `possible_imports`
dictionary. -/
structure DepResult where
  imports : List String
  possible_imports : List String
deriving Repr, DecidableEq

/-- `DependencyDetector.detect_dependencies`: existence check, extension
dispatch (a handler exception leaves both lists empty), cross-reference
matching against the tracked files, then `sorted(list(set(·)))` packaging. -/
def detect_dependencies (fs : FS) (filePath : String) (tracked : List String) :
    DepResult :=
  let p := absPath filePath
  if fs.fexists p = false then ⟨[], []⟩
  else
    let ext := lowerStr (splitExt p).2
    let cp :=
      if handledExts.contains ext then
        if ext = ".py" then detect_python_dependencies fs p
        else
          match fs.otherLang ext p with
          | .ok r => r
          | .error _ => ([], [])
      else ([], [])
    let er := crossRef tracked cp.1 cp.2
    ⟨dedupSort er.1, dedupSort er.2⟩

/-- A ranking entry (`self.data["files"][path]`). -/
structure FileInfo where
  rank : Int
  summary : String
deriving Repr, DecidableEq

/-- A dependency record (`self.data["dependencies"][path]`). -/
structure DepRecord where
  imports : List String
  possible_imports : List String
deriving Repr, DecidableEq

/-- The manager's persisted state `self.data`: two dicts keyed by absolute
path, modelled as association lists in insertion order. -/
structure Store where
  files : List (String × FileInfo)
  dependencies : List (String × DepRecord)
deriving Repr, DecidableEq

/-- Dict key-membership test. -/
def hasKey {α : Type} (l : List (String × α)) (k : String) : Bool :=
  l.any (fun kv => kv.1 == k)

/-- Dict lookup. -/
def getAL {α : Type} (l : List (String × α)) (k : String) : Option α :=
  (l.find? (fun kv => kv.1 == k)).map (·.2)

/-- Dict assignment `d[k] = v`: update in place if present, else append. -/
def setAL {α : Type} (l : List (String × α)) (k : String) (v : α) :
    List (String × α) :=
  if hasKey l k then l.map (fun kv => if kv.1 == k then (k, v) else kv)
  else l ++ [(k, v)]

/-- Dict deletion `del d[k]`. -/
def delAL {α : Type} (l : List (String × α)) (k : String) :
    List (String × α) :=
  l.filter (fun kv => !(kv.1 == k))

/-- `FileRankManager.rank_file`: reject a missing path or a rank outside
1..10 without touching the state; otherwise create/update the ranking entry
(the summary defaults to a placeholder) and save.  The `Bool` is success. -/
def rank_file (fs : FS) (s : Store) (filePath : String) (rank : Int)
    (summary : Option String) : Store × Bool :=
  if fs.fexists filePath = false then (s, false)
  else if rank < 1 ∨ rank > 10 then (s, false)
  else
    let sm := summary.getD "No summary provided."
    ({ s with files := setAL s.files (absPath filePath) ⟨rank, sm⟩ }, true)

/-- `FileRankManager.delete_file`: when the path is ranked, delete its
ranking entry and its own dependency record, then remove the path (first
occurrence, Python `list.remove`) from every remaining record's `imports`;
unranked paths produce an error and no change. -/
def delete_file (s : Store) (filePath : String) : Store × Bool :=
  let p := absPath filePath
  if hasKey s.files p then
    let files' := delAL s.files p
    let deps1 := delAL s.dependencies p
    let deps2 := deps1.map (fun kv =>
      if kv.2.imports.contains p then
        (kv.1, { kv.2 with imports := kv.2.imports.erase p })
      else kv)
    ({ files := files', dependencies := deps2 }, true)
  else (s, false)

/-- `FileRankManager.update_dependencies` (`scanOne`): reject a missing
path; otherwise detect against the tracked-file list and replace the
dependency record wholesale (the source first creates an empty dict for the
key when absent, then assigns both fields — the net effect modelled here). -/
def update_dependencies (fs : FS) (s : Store) (filePath : String) :
    Store × Bool :=
  let p := absPath filePath
  if fs.fexists p = false then (s, false)
  else
    let tracked := s.files.map (·.1)
    let r := detect_dependencies fs p tracked
    ({ s with dependencies := setAL s.dependencies p ⟨r.imports, r.possible_imports⟩ },
     true)

/-- Aggregates returned by `scan_all_dependencies`. -/
structure ScanAgg where
  updated_files : List String
  total_imports : Nat
  total_possible_imports : Nat
deriving Repr, DecidableEq

/-- Loop body of `scan_all_dependencies`: skip a ranked file missing from
disk, otherwise record its detection result and accumulate the counts. -/
def scanStep (fs : FS) (tracked : List String) (acc : Store × ScanAgg)
    (p : String) : Store × ScanAgg :=
  if fs.fexists p = false then acc
  else
    let r := detect_dependencies fs p tracked
    ({ acc.1 with
        dependencies := setAL acc.1.dependencies p ⟨r.imports, r.possible_imports⟩ },
     { updated_files := acc.2.updated_files ++ [p]
       total_imports := acc.2.total_imports + r.imports.length
       total_possible_imports := acc.2.total_possible_imports + r.possible_imports.length })

/-- `FileRankManager.scan_all_dependencies`: with no ranked files, answer
the `info` result (`none`) and change nothing; otherwise fold the loop body
over the ranked paths in store order, with the tracked-file list taken
before the loop. -/
def scan_all_dependencies (fs : FS) (s : Store) : Store × Option ScanAgg :=
  if s.files.isEmpty then (s, none)
  else
    let tracked := s.files.map (·.1)
    let r := (s.files.map (·.1)).foldl (scanStep fs tracked) (s, ⟨[], 0, 0⟩)
    (r.1, some r.2)

/-- A rendered tree or leaf line.  The source renders each node as the
string `f"{prefix}{connector}{relpath}{importance}"`; `os.path.relpath` is a
display-only transformation depending on the ambient working directory and
is modelled as the identity, keeping the node's path countable. -/
structure TreeLine where
  pfx : String
  connector : String
  path : String
  rank : Option Int
deriving Repr, DecidableEq

/-- Sort key of `build_tree`'s child ordering: the rank when ranked, the
sentinel 999 otherwise. -/
def getRank (s : Store) (p : String) : Int :=
  match getAL s.files p with
  | some fi => fi.rank
  | none => 999

/-- Stable insertion by rank key (used to model Python's stable in-place
`list.sort(key=get_rank)`). -/
def insByRank (s : Store) (x : String) : List String → List String
  | [] => [x]
  | y :: ys => if getRank s x ≤ getRank s y then x :: y :: ys else y :: insByRank s x ys

/-- Stable sort of a dependency list ascending by rank. -/
def sortByRank (s : Store) (l : List String) : List String :=
  l.foldr (insByRank s) []

mutual
/-- The recursive `build_tree` closure of `visualize_dependencies` (lines
1388-1445): a call past `max_depth` or on an already-visited path emits
nothing and leaves the visited set unchanged; otherwise the path joins the
visited set, its line is emitted (expanded nodes always use the `"├── "`
connector), and its recorded imports — sorted by rank — are processed in
order, threading the visited set. -/
def build_tree (s : Store) (maxDepth depth : Nat) (path pfx : String)
    (visited : List String) : List TreeLine × List String :=
  if _h : maxDepth < depth ∨ visited.contains path then ([], visited)
  else
    let visited1 := path :: visited
    let line : TreeLine := ⟨pfx, "├── ", path, (getAL s.files path).map (·.rank)⟩
    match getAL s.dependencies path with
    | none => ([line], visited1)
    | some r =>
      let deps := sortByRank s r.imports
      let c := build_children s maxDepth depth pfx deps.length 0 deps visited1
      (line :: c.1, c.2)
termination_by (maxDepth + 1 - depth, 0, 0)
decreasing_by
  · exact Prod.Lex.left _ _ (by omega)

/-- The child loop of `build_tree`: a child already in the visited set is
skipped outright (no line, no recursion); otherwise the child is recursed
into at `depth + 1`, and when that recursion emits nothing (its depth guard
fired) the child is rendered as a single terminal leaf line instead.  The
child prefix is `prefix + new_prefix` where `new_prefix` itself already
starts with `prefix`, reproducing the source's doubled-prefix indentation. -/
def build_children (s : Store) (maxDepth depth : Nat) (pfx : String)
    (total i : Nat) (deps : List String) (visited : List String) :
    List TreeLine × List String :=
  match deps with
  | [] => ([], visited)
  | dep :: rest =>
    let isLast := i = total - 1
    let newPfx := pfx ++ (if isLast then "    " else "│   ")
    let conn := if isLast then "└── " else "├── "
    let first :=
      if visited.contains dep then ([], visited)
      else
        let sub := build_tree s maxDepth (depth + 1) dep (pfx ++ newPfx) visited
        if sub.1.isEmpty then
          ([⟨pfx ++ newPfx, conn, dep, (getAL s.files dep).map (·.rank)⟩], sub.2)
        else sub
    let restR := build_children s maxDepth depth pfx total (i + 1) rest first.2
    (first.1 ++ restR.1, restR.2)
termination_by (maxDepth - depth, 1, deps.length)
decreasing_by
  · simp only [show maxDepth + 1 - (depth + 1) = maxDepth - depth from by omega]
    exact Prod.Lex.right _ (Prod.Lex.left _ _ (by omega))
  · exact Prod.Lex.right _ (Prod.Lex.right _ (by simp))
end

/-- Summary statistics of `visualize_dependencies`. -/
structure VisStats where
  depth : Nat
  certain_dependencies : Nat
  possible_imports : Nat
  dependents_count : Nat
deriving Repr, DecidableEq

/-- Result of `visualize_dependencies`: the error and info answers, or the
tree lines, the direct dependents (the flat reverse-edge scan) and the
statistics. -/
inductive VisResult where
  | err : VisResult
  | info : VisResult
  | ok : List TreeLine → List String → VisStats → VisResult
deriving Repr, DecidableEq

/-- `FileRankManager.visualize_dependencies`: error on a missing path, info
when the path has no dependency record, otherwise the depth-bounded tree
from a fresh visited set, the linear scan for dependents, and the counts
taken from the path's own record. -/
def visualize_dependencies (fs : FS) (s : Store) (filePath : String)
    (maxDepth : Nat) : VisResult :=
  let p := absPath filePath
  if fs.fexists p = false then .err
  else if hasKey s.dependencies p = false then .info
  else
    let tree := (build_tree s maxDepth 0 p "" []).1
    let dependents := (s.dependencies.filter (fun kv => kv.2.imports.contains p)).map (·.1)
    let certain := match getAL s.dependencies p with
      | some r => r.imports.length
      | none => 0
    let possible := match getAL s.dependencies p with
      | some r => r.possible_imports.length
      | none => 0
    .ok tree dependents ⟨maxDepth, certain, possible, dependents.length⟩

/-- Child-loop step of the fuel-indexed evaluator `btF`, with the recursive
call abstracted; it mirrors one iteration of `build_children` with the
running index threaded through the accumulator. -/
def btFStep
    (btRec : Store → Nat → Nat → String → String → List String →
      List TreeLine × List String)
    (s : Store) (maxDepth depth : Nat) (pfx : String) (total : Nat)
    (acc : List TreeLine × List String × Nat) (dep : String) :
    List TreeLine × List String × Nat :=
  let isLast := acc.2.2 = total - 1
  let newPfx := pfx ++ (if isLast then "    " else "│   ")
  let conn := if isLast then "└── " else "├── "
  let first :=
    if acc.2.1.contains dep then (([] : List TreeLine), acc.2.1)
    else
      let sub := btRec s maxDepth (depth + 1) dep (pfx ++ newPfx) acc.2.1
      if sub.1.isEmpty then
        ([⟨pfx ++ newPfx, conn, dep, (getAL s.files dep).map (·.rank)⟩], sub.2)
      else sub
  (acc.1 ++ first.1, first.2, acc.2.2 + 1)

/-- Fuel-indexed structural twin of `build_tree`, used to evaluate the
well-founded recursion on concrete inputs; `build_tree_eq_btF` shows it
agrees with `build_tree` whenever the fuel covers the remaining depth. -/
def btF : Nat → Store → Nat → Nat → String → String → List String →
    List TreeLine × List String
  | 0, _, _, _, _, _, visited => ([], visited)
  | fuel + 1, s, maxDepth, depth, path, pfx, visited =>
    if maxDepth < depth ∨ visited.contains path then ([], visited)
    else
      let visited1 := path :: visited
      let line : TreeLine := ⟨pfx, "├── ", path, (getAL s.files path).map (·.rank)⟩
      match getAL s.dependencies path with
      | none => ([line], visited1)
      | some r =>
        let deps := sortByRank s r.imports
        let c := deps.foldl (btFStep (btF fuel) s maxDepth depth pfx deps.length)
          ([], visited1, 0)
        (line :: c.1, c.2.1)

theorem build_tree_eq_btF :
    ∀ (fuel : Nat) (s : Store) (maxDepth depth : Nat) (path pfx : String)
      (visited : List String), maxDepth + 1 - depth ≤ fuel →
      build_tree s maxDepth depth path pfx visited =
        btF fuel s maxDepth depth path pfx visited := by
  intro fuel
  induction fuel with
  | zero =>
    intro s maxDepth depth path pfx visited h
    have hd : maxDepth < depth := by omega
    simp [build_tree, btF, hd]
  | succ fuel ih =>
    intro s maxDepth depth path pfx visited h
    by_cases hg : maxDepth < depth ∨ path ∈ visited
    · simp [build_tree, btF, hg]
    · have hdep : depth ≤ maxDepth := by
        rcases not_or.mp hg with ⟨h1, _⟩
        omega
      have hbc : ∀ (total : Nat) (ds : List String) (i : Nat)
          (vis : List String) (l0 : List TreeLine),
          ds.foldl (btFStep (btF fuel) s maxDepth depth pfx total) (l0, vis, i) =
            (l0 ++ (build_children s maxDepth depth pfx total i ds vis).1,
             (build_children s maxDepth depth pfx total i ds vis).2,
             i + ds.length) := by
        intro total ds
        induction ds with
        | nil =>
          intro i vis l0
          simp [build_children]
        | cons dep rest ihds =>
          intro i vis l0
          have hsub := fun vv =>
            ih s maxDepth (depth + 1) dep
              (pfx ++ (pfx ++ (if i = total - 1 then "    " else "│   "))) vv
              (by omega)
          simp only [List.foldl_cons, btFStep, ihds]
          simp only [build_children, ← hsub]
          by_cases hv : vis.contains dep <;>
            simp [hv, List.append_assoc] <;> omega
      simp only [build_tree, btF, hg]
      cases hAL : getAL s.dependencies path with
      | none => simp
      | some r =>
        simp only [hbc]
        simp

/-! Concrete environments used by the witnesses and counterexamples below. -/

/-- A filesystem with no files. -/
def fsEmpty : FS :=
  { fexists := fun _ => false
    pyParse := fun _ => .error ()
    otherLang := fun _ _ => .error () }

/-- Two mutually importing files `/a.py` and `/b.py`, already scanned. -/
def fsAB : FS :=
  { fexists := fun p => ["/a.py", "/b.py"].contains p
    pyParse := fun p =>
      if p = "/a.py" then .ok ["b"] else if p = "/b.py" then .ok ["a"] else .error ()
    otherLang := fun _ _ => .error () }

/-- Store holding the scanned 2-cycle between `/a.py` and `/b.py`. -/
def sAB : Store :=
  { files := []
    dependencies := [("/a.py", ⟨["/b.py"], []⟩), ("/b.py", ⟨["/a.py"], []⟩)] }

/-- `/proj/a.py` contains `import pkg`; the package form
`/proj/pkg/__init__.py` exists on disk but `/proj/pkg.py` does not. -/
def fsPkg : FS :=
  { fexists := fun p => ["/proj/a.py", "/proj/pkg/__init__.py"].contains p
    pyParse := fun p => if p = "/proj/a.py" then .ok ["pkg"] else .error ()
    otherLang := fun _ _ => .error () }

/-- `/proj/a.py` contains `import os`; no local `os.py` exists. -/
def fsOs : FS :=
  { fexists := fun p => ["/proj/a.py"].contains p
    pyParse := fun p => if p = "/proj/a.py" then .ok ["os"] else .error ()
    otherLang := fun _ _ => .error () }

/-- Filesystem at ranking time for the staleness scenario: both `/p/a.py`
and `/q/b.py` exist. -/
def fsRank : FS :=
  { fexists := fun p => ["/p/a.py", "/q/b.py"].contains p
    pyParse := fun _ => .error ()
    otherLang := fun _ _ => .error () }

/-- Filesystem at scan time for the staleness scenario: `/q/b.py` has been
deleted from disk; `/p/a.py` contains `import b`. -/
def fsScan : FS :=
  { fexists := fun p => ["/p/a.py"].contains p
    pyParse := fun p => if p = "/p/a.py" then .ok ["b"] else .error ()
    otherLang := fun _ _ => .error () }

/-- The reachable state of the staleness scenario: rank both files while
they exist, then rescan `/p/a.py` after `/q/b.py` is gone. -/
def staleState : Store :=
  (update_dependencies fsScan
    ((rank_file fsRank ((rank_file fsRank ⟨[], []⟩ "/p/a.py" 5 none).1)
        "/q/b.py" 5 none).1)
    "/p/a.py").1

/-- Store for the deletion witness: `/a.py` is ranked, and `/c.py`'s record
still lists `/a.py` among its imports. -/
def sDel : Store :=
  { files := [("/a.py", ⟨1, "s"⟩)]
    dependencies := [("/a.py", ⟨["/b.py"], []⟩), ("/c.py", ⟨["/a.py"], []⟩)] }

/-- Store for the batch-scan witness: one ranked file still on disk (under
`fsScan`), one ranked file deleted from disk but with a stale record. -/
def sScanW : Store :=
  { files := [("/p/a.py", ⟨5, "s"⟩), ("/gone.py", ⟨1, "s"⟩)]
    dependencies := [("/gone.py", ⟨["/old.py"], []⟩)] }

/-- Filesystem for the parse-failure witness: `/e.py` exists but its
content does not parse. -/
def fsErr : FS :=
  { fexists := fun p => ["/e.py"].contains p
    pyParse := fun _ => .error ()
    otherLang := fun _ _ => .error () }

/-- Store ranking the unparsable `/e.py`. -/
def sErr : Store :=
  { files := [("/e.py", ⟨2, "s"⟩)]
    dependencies := [] }

/-! Helper lemmas. -/

theorem mem_insLe (a x : String) (l : List String) :
    a ∈ insLe x l ↔ a = x ∨ a ∈ l := by
  induction l with
  | nil => simp [insLe]
  | cons y ys ih =>
    by_cases h : x ≤ y
    · simp [insLe, h]
    · simp [insLe, h, ih]
      tauto

theorem mem_sortStrings (a : String) (l : List String) :
    a ∈ sortStrings l ↔ a ∈ l := by
  induction l with
  | nil => simp [sortStrings]
  | cons x xs ih =>
    simp only [sortStrings, List.foldr_cons, mem_insLe, List.mem_cons]
    rw [show xs.foldr insLe [] = sortStrings xs from rfl]
    simp [ih]

theorem mem_dedupList (a : String) (l : List String) :
    a ∈ dedupList l ↔ a ∈ l := by
  induction l with
  | nil => simp [dedupList]
  | cons x xs ih =>
    by_cases h : xs.contains x
    · have hx : x ∈ xs := by simpa using h
      simp only [dedupList]
      rw [if_pos h]
      simp only [ih, List.mem_cons]
      constructor
      · exact fun hm => Or.inr hm
      · rintro (rfl | hm)
        · exact hx
        · exact hm
    · simp only [dedupList]
      rw [if_neg h]
      simp [ih]

theorem mem_dedupSort (a : String) (l : List String) :
    a ∈ dedupSort l ↔ a ∈ l := by
  simp [dedupSort, mem_sortStrings, mem_dedupList]

theorem getAL_cons {α : Type} (kv : String × α) (l : List (String × α))
    (k' : String) :
    getAL (kv :: l) k' = if kv.1 == k' then some kv.2 else getAL l k' := by
  by_cases h : (kv.1 == k') = true
  · simp [getAL, List.find?_cons_of_pos, h]
  · simp [getAL, List.find?_cons_of_neg, h]

theorem setAL_cons_ne {α : Type} (kv : String × α) (l : List (String × α))
    (k : String) (v : α) (h : (kv.1 == k) = false) :
    setAL (kv :: l) k v = kv :: setAL l k v := by
  simp only [setAL, hasKey, List.any_cons, h, Bool.false_or, List.map_cons,
    List.cons_append]
  by_cases h2 : l.any (fun kv => kv.1 == k) <;> simp [h, h2]

theorem getAL_map_ne {α : Type} (l : List (String × α)) (k k' : String)
    (v : α) (h : k' ≠ k) :
    getAL (l.map (fun kv => if kv.1 == k then (k, v) else kv)) k' =
      getAL l k' := by
  induction l with
  | nil => simp [getAL]
  | cons kv rest ih =>
    simp only [List.map_cons]
    rw [getAL_cons, getAL_cons]
    by_cases h1 : (kv.1 == k) = true
    · have hk : kv.1 = k := by simpa using h1
      have c1 : (k == k') = false := by
        simpa [beq_iff_eq] using Ne.symm h
      have c2 : (kv.1 == k') = false := by rw [hk]; exact c1
      rw [if_pos h1]
      simp only [c1, c2, Bool.false_eq_true, if_false]
      exact ih
    · rw [if_neg h1]
      by_cases h2 : (kv.1 == k') = true
      · simp [h2]
      · simp only [h2, Bool.false_eq_true, if_false]
        exact ih

theorem getAL_setAL {α : Type} (l : List (String × α)) (k : String) (v : α)
    (k' : String) :
    getAL (setAL l k v) k' = if k' = k then some v else getAL l k' := by
  induction l with
  | nil =>
    by_cases h : k' = k
    · subst h
      simp [setAL, hasKey, getAL, List.find?]
    · simp [setAL, hasKey, getAL, List.find?, h,
        show (k == k') = false by simpa [beq_iff_eq] using Ne.symm h]
  | cons kv rest ih =>
    by_cases h1 : (kv.1 == k) = true
    · have hk : kv.1 = k := by simpa using h1
      have hKey : hasKey (kv :: rest) k = true := by simp [hasKey, h1]
      simp only [setAL, hKey, if_true, List.map_cons, if_pos h1]
      rw [getAL_cons]
      by_cases h : k' = k
      · subst h
        simp
      · have c1 : (k == k') = false := by
          simpa [beq_iff_eq] using Ne.symm h
        simp only [c1, Bool.false_eq_true, if_false]
        rw [getAL_map_ne rest k k' v h, if_neg h, getAL_cons]
        have c2 : (kv.1 == k') = false := by rw [hk]; exact c1
        simp [c2]
    · rw [setAL_cons_ne kv rest k v (by simpa using h1)]
      rw [getAL_cons, getAL_cons]
      by_cases h2 : (kv.1 == k') = true
      · have hk' : kv.1 = k' := by simpa using h2
        have hne : k' ≠ k := by
          rw [← hk']
          simpa using h1
        simp [h2, hne]
      · simp only [h2, Bool.false_eq_true, if_false]
        rw [ih]

theorem pyfold_mono (fs : FS) (fp : String) :
    ∀ (ms : List String) (acc : List String × List String) (x : String),
      x ∈ acc.1 → x ∈ (ms.foldl (pyStep fs fp) acc).1 := by
  intro ms
  induction ms with
  | nil => intro acc x hx; simpa using hx
  | cons m rest ih =>
    intro acc x hx
    simp only [List.foldl_cons]
    apply ih
    simp only [pyStep]
    by_cases h : fs.fexists (pyTarget fp m) <;> simp [h, hx]

theorem pyfold_cert (fs : FS) (fp : String) :
    ∀ (ms : List String) (acc : List String × List String) (x : String),
      x ∈ (ms.foldl (pyStep fs fp) acc).1 → x ∈ acc.1 ∨ fs.fexists x = true := by
  intro ms
  induction ms with
  | nil => intro acc x hx; exact Or.inl (by simpa using hx)
  | cons m rest ih =>
    intro acc x hx
    simp only [List.foldl_cons] at hx
    rcases ih _ x hx with hx1 | hx1
    · simp only [pyStep] at hx1
      by_cases h : fs.fexists (pyTarget fp m)
      · simp only [h, if_true, List.mem_append, List.mem_singleton] at hx1
        rcases hx1 with hx2 | rfl
        · exact Or.inl hx2
        · exact Or.inr h
      · simp only [h] at hx1
        simp at hx1
        exact Or.inl hx1
    · exact Or.inr hx1

theorem pyfold_keep (fs : FS) (fp m : String)
    (hm : fs.fexists (pyTarget fp m) = false) :
    ∀ (ms : List String) (acc : List String × List String),
      m ∈ acc.2 → m ∈ (ms.foldl (pyStep fs fp) acc).2 := by
  intro ms
  induction ms with
  | nil => intro acc hx; simpa using hx
  | cons m' rest ih =>
    intro acc hx
    simp only [List.foldl_cons]
    apply ih
    simp only [pyStep]
    by_cases h : fs.fexists (pyTarget fp m')
    · have hne : m ≠ m' := by
        rintro rfl
        rw [hm] at h
        exact absurd h (by simp)
      simp only [h, if_true]
      exact (List.mem_erase_of_ne hne).mpr hx
    · simpa [h] using hx

theorem pyfold_certain_added (fs : FS) (fp m : String)
    (hm : fs.fexists (pyTarget fp m) = true) :
    ∀ (ms : List String) (acc : List String × List String),
      m ∈ ms → pyTarget fp m ∈ (ms.foldl (pyStep fs fp) acc).1 := by
  intro ms
  induction ms with
  | nil => intro acc h; simp at h
  | cons m' rest ih =>
    intro acc hmem
    simp only [List.foldl_cons]
    rcases List.mem_cons.mp hmem with rfl | hmem
    · apply pyfold_mono
      simp [pyStep, hm]
    · exact ih _ hmem

theorem crfold_spec (tracked : List String) :
    ∀ (possible : List String) (acc : List String × List String),
      (∀ x ∈ acc.1, x ∈ (possible.foldl (crStep tracked) acc).1) ∧
      (∀ x ∈ (possible.foldl (crStep tracked) acc).2, x ∈ acc.2 ∨ x ∈ possible) ∧
      (∀ x ∈ (possible.foldl (crStep tracked) acc).1, x ∈ acc.1 ∨ x ∈ tracked) := by
  intro possible
  induction possible with
  | nil =>
    intro acc
    refine ⟨fun x hx => by simpa using hx, fun x hx => Or.inl (by simpa using hx),
      fun x hx => Or.inl (by simpa using hx)⟩
  | cons dep rest ih =>
    intro acc
    simp only [List.foldl_cons]
    refine ⟨fun x hx => ?_, fun x hx => ?_, fun x hx => ?_⟩
    · apply (ih _).1
      cases hf : tracked.find? (tokenMatches dep) <;> simp [crStep, hf, hx]
    · rcases (ih _).2.1 x hx with h1 | h1
      · cases hf : tracked.find? (tokenMatches dep) with
        | none =>
          simp only [crStep, hf] at h1
          rcases List.mem_append.mp h1 with h2 | h2
          · exact Or.inl h2
          · simp at h2
            subst h2
            simp
        | some t =>
          simp only [crStep, hf] at h1
          exact Or.inl h1
      · simp [h1]
    · rcases (ih _).2.2 x hx with h1 | h1
      · cases hf : tracked.find? (tokenMatches dep) with
        | none =>
          simp only [crStep, hf] at h1
          exact Or.inl h1
        | some t =>
          simp only [crStep, hf] at h1
          rcases List.mem_append.mp h1 with h2 | h2
          · exact Or.inl h2
          · simp at h2
            subst h2
            exact Or.inr (List.mem_of_find?_eq_some hf)
      · exact Or.inr h1

theorem hasKey_delAL {α : Type} (l : List (String × α)) (k : String) :
    hasKey (delAL l k) k = false := by
  simp only [hasKey, delAL, List.any_eq_true, not_exists]
  rw [Bool.eq_false_iff]
  intro hcon
  simp only [List.any_eq_true] at hcon
  rcases hcon with ⟨kv, hkv, he⟩
  rcases List.mem_filter.mp hkv with ⟨_, hne⟩
  simp [he] at hne

/-! Claim theorems. -/

/-- C5: the cross-reference matching pass is monotone: the final certain
set contains everything per-language resolution put in `certain`, the final
possible set only keeps tokens from resolution's `possible`, and no token
that resolution placed in `certain` (and not in `possible`) is introduced
into the final possible set. -/
theorem cross_reference_monotone (tracked certain possible : List String) :
    (∀ x ∈ certain, x ∈ dedupSort (crossRef tracked certain possible).1) ∧
    (∀ x ∈ dedupSort (crossRef tracked certain possible).2, x ∈ possible) ∧
    (∀ x, x ∈ certain → x ∉ possible →
      x ∉ dedupSort (crossRef tracked certain possible).2) := by
  have h := crfold_spec tracked possible (certain, [])
  refine ⟨fun x hx => ?_, fun x hx => ?_, fun x hx hnp hmem => ?_⟩
  · rw [mem_dedupSort]
    exact h.1 x hx
  · rw [mem_dedupSort] at hx
    rcases h.2.1 x hx with h1 | h1
    · simp at h1
    · exact h1
  · rw [mem_dedupSort] at hmem
    rcases h.2.1 x hmem with h1 | h1
    · simp at h1
    · exact hnp h1

theorem cross_reference_monotone_witness :
    "/x.py" ∈ dedupSort (crossRef ["/t/b.py"] ["/x.py"] ["b", "zzz"]).1 ∧
    "zzz" ∈ (["b", "zzz"] : List String) ∧
    "/x.py" ∉ dedupSort (crossRef ["/t/b.py"] ["/x.py"] ["b", "zzz"]).2 :=
  ⟨(cross_reference_monotone ["/t/b.py"] ["/x.py"] ["b", "zzz"]).1 "/x.py" (by decide),
   (cross_reference_monotone ["/t/b.py"] ["/x.py"] ["b", "zzz"]).2.1 "zzz" (by decide),
   (cross_reference_monotone ["/t/b.py"] ["/x.py"] ["b", "zzz"]).2.2 "/x.py"
     (by decide) (by decide)⟩

/-- C10: `rank_file` is atomic on error: a missing path or a rank outside
1..10 yields an error with the store exactly unchanged, and the ranking
entry is created/updated exactly when the path exists and the rank is in
range. -/
theorem rank_file_atomic (fs : FS) (s : Store) (filePath : String)
    (rank : Int) (summary : Option String) :
    ((fs.fexists filePath = false ∨ rank < 1 ∨ rank > 10) →
      rank_file fs s filePath rank summary = (s, false)) ∧
    (fs.fexists filePath = true → 1 ≤ rank → rank ≤ 10 →
      rank_file fs s filePath rank summary =
        (Store.mk
          (setAL s.files (absPath filePath)
            (FileInfo.mk rank (summary.getD "No summary provided.")))
          s.dependencies, true)) := by
  constructor
  · intro h
    by_cases hf : fs.fexists filePath = false
    · simp [rank_file, hf]
    · have hft : fs.fexists filePath = true := by
        cases hfe : fs.fexists filePath
        · exact absurd hfe hf
        · rfl
      rcases h with h | h | h
      · exact absurd h hf
      · have hr : rank < 1 ∨ rank > 10 := Or.inl h
        simp [rank_file, hft, hr]
      · have hr : rank < 1 ∨ rank > 10 := Or.inr h
        simp [rank_file, hft, hr]
  · intro hf h1 h10
    have hno : ¬(rank < 1 ∨ rank > 10) := by omega
    simp [rank_file, hf, hno]

theorem rank_file_atomic_witness :
    rank_file fsRank ⟨[], []⟩ "/p/a.py" 0 none = (⟨[], []⟩, false) ∧
    rank_file fsRank ⟨[], []⟩ "/p/a.py" 3 none =
      (⟨[("/p/a.py", ⟨3, "No summary provided."⟩)], []⟩, true) := by
  constructor
  · exact (rank_file_atomic fsRank ⟨[], []⟩ "/p/a.py" 0 none).1
      (Or.inr (Or.inl (by norm_num)))
  · rw [(rank_file_atomic fsRank ⟨[], []⟩ "/p/a.py" 3 none).2 (by decide)
      (by norm_num) (by norm_num)]
    decide

/-- C6: `delete_file` is idempotent on the store state, and after a
successful call no remaining dependency record keeps the deleted path in
its imports.  The hypothesis — each record lists the path at most once —
holds in every state the system itself builds, since records are written
through `sorted(list(set(...)))`. -/
theorem delete_file_idempotent_purges (s : Store) (filePath : String)
    (hnd : ∀ kv ∈ s.dependencies, List.count (absPath filePath) kv.2.imports ≤ 1) :
    (delete_file (delete_file s filePath).1 filePath).1 = (delete_file s filePath).1 ∧
    ((delete_file s filePath).2 = true →
      ∀ kv ∈ (delete_file s filePath).1.dependencies,
        absPath filePath ∉ kv.2.imports) := by
  by_cases hk : hasKey s.files (absPath filePath) = true
  · have h1 : (delete_file s filePath).1 =
        { files := delAL s.files (absPath filePath)
          dependencies := (delAL s.dependencies (absPath filePath)).map (fun kv =>
            if kv.2.imports.contains (absPath filePath) then
              (kv.1, { kv.2 with imports := kv.2.imports.erase (absPath filePath) })
            else kv) } := by
      simp [delete_file, hk]
    constructor
    · rw [h1]
      have hk2 : hasKey (delAL s.files (absPath filePath)) (absPath filePath) = false :=
        hasKey_delAL s.files (absPath filePath)
      simp [delete_file, hk2]
    · intro _ kv hkv
      rw [h1] at hkv
      rcases List.mem_map.mp hkv with ⟨kv0, hkv0, rfl⟩
      have hkv0' : kv0 ∈ s.dependencies := List.mem_of_mem_filter hkv0
      have hcnt := hnd kv0 hkv0'
      by_cases hc : kv0.2.imports.contains (absPath filePath) = true
      · simp only [hc, if_true]
        have hmem : absPath filePath ∈ kv0.2.imports := by simpa using hc
        have hcnt1 : List.count (absPath filePath) kv0.2.imports = 1 := by
          have := List.count_pos_iff.mpr hmem
          omega
        have : List.count (absPath filePath)
            (kv0.2.imports.erase (absPath filePath)) = 0 := by
          rw [List.count_erase_self]
          omega
        simpa using List.count_eq_zero.mp this
      · simp only [hc, if_false]
        intro hmem
        exact hc (by simpa using hmem)
  · have h1 : delete_file s filePath = (s, false) := by
      simp [delete_file, hk]
    constructor
    · rw [h1]
      simp [h1]
    · intro h2
      rw [h1] at h2
      simp at h2

theorem delete_file_idempotent_purges_witness :
    (delete_file (delete_file sDel "/a.py").1 "/a.py").1 = (delete_file sDel "/a.py").1 ∧
    ((delete_file sDel "/a.py").2 = true →
      ∀ kv ∈ (delete_file sDel "/a.py").1.dependencies,
        absPath "/a.py" ∉ kv.2.imports) :=
  delete_file_idempotent_purges sDel "/a.py" (by decide)

theorem crossRef_nil_tracked :
    ∀ (possible : List String) (acc : List String × List String),
      possible.foldl (crStep []) acc = (acc.1, acc.2 ++ possible) := by
  intro possible
  induction possible with
  | nil => intro acc; simp
  | cons dep rest ih =>
    intro acc
    simp only [List.foldl_cons, crStep, List.find?_nil]
    rw [ih]
    simp

theorem py_certain_exists (fs : FS) (fp : String) :
    ∀ x ∈ (detect_python_dependencies fs fp).1, fs.fexists x = true := by
  intro x hx
  cases hparse : fs.pyParse fp with
  | error e =>
    simp [detect_python_dependencies, hparse] at hx
  | ok modules =>
    simp only [detect_python_dependencies, hparse] at hx
    rcases pyfold_cert fs fp modules ([], modules) x hx with h | h
    · simp at h
    · exact h

theorem detect_dependencies_py (fs : FS) (filePath : String)
    (tracked : List String)
    (hex : fs.fexists (absPath filePath) = true)
    (hext : lowerStr (splitExt (absPath filePath)).2 = ".py") :
    detect_dependencies fs filePath tracked =
      ⟨dedupSort (crossRef tracked
          (detect_python_dependencies fs (absPath filePath)).1
          (detect_python_dependencies fs (absPath filePath)).2).1,
       dedupSort (crossRef tracked
          (detect_python_dependencies fs (absPath filePath)).1
          (detect_python_dependencies fs (absPath filePath)).2).2⟩ := by
  simp [detect_dependencies, hex, hext, handledExts]

/-- C2 counterexample: `/proj/a.py` holds `import pkg`; the package form
`/proj/pkg/__init__.py` exists while `/proj/pkg.py` does not, yet the
resolver adds nothing to the certain imports and keeps `pkg` possible — it
never tests the `<segments>/__init__.py` form. -/
theorem python_resolution_cex :
    detect_dependencies fsPkg "/proj/a.py" [] =
      ⟨[], ["pkg"]⟩ ∧
    fsPkg.fexists "/proj/pkg/__init__.py" = true ∧
    fsPkg.fexists (pyTarget "/proj/a.py" "pkg") = false := by
  refine ⟨?_, by decide, by decide⟩
  decide

/-- C2 (amended): Python resolution splits the dotted name, joins it under
the importing file's directory and tests only the `<segments>.py` form: an
existing candidate is added to the certain imports, and otherwise (even if
`<segments>/__init__.py` exists) the original dotted name is kept as a
possible import. -/
theorem python_resolution_py_only (fs : FS) (filePath : String)
    (modules : List String) (m : String)
    (hp : fs.pyParse filePath = Except.ok modules) (hm : m ∈ modules) :
    (fs.fexists (pyTarget filePath m) = true →
      pyTarget filePath m ∈ (detect_python_dependencies fs filePath).1) ∧
    (fs.fexists (pyTarget filePath m) = false →
      m ∈ (detect_python_dependencies fs filePath).2) := by
  have hfold : detect_python_dependencies fs filePath =
      modules.foldl (pyStep fs filePath) ([], modules) := by
    simp [detect_python_dependencies, hp]
  constructor
  · intro hex
    rw [hfold]
    exact pyfold_certain_added fs filePath m hex modules ([], modules) hm
  · intro hnex
    rw [hfold]
    exact pyfold_keep fs filePath m hnex modules ([], modules) hm

theorem python_resolution_py_only_witness :
    "pkg" ∈ (detect_python_dependencies fsPkg "/proj/a.py").2 :=
  (python_resolution_py_only fsPkg "/proj/a.py" ["pkg"] "pkg" rfl
    (by decide)).2 (by decide)

/-- C3 counterexample: `/proj/a.py` holds `import os` and no local `os.py`
exists; the standard-library name `os` is not excluded — it surfaces in the
scan result's possible imports. -/
theorem stdlib_exclusion_cex :
    "os" ∈ (detect_dependencies fsOs "/proj/a.py" []).possible_imports ∧
    detect_dependencies fsOs "/proj/a.py" [] = ⟨[], ["os"]⟩ := by
  refine ⟨?_, by decide⟩
  decide

/-- C3 (amended): standard-library module names are not excluded from
candidate generation: any collected module name — `os`, `sys`, `json`
included — whose local `<segments>.py` candidate is missing ends up in the
scan result's possible imports (shown here with no tracked files, so the
cross-reference pass promotes nothing). -/
theorem stdlib_names_kept (fs : FS) (filePath : String)
    (modules : List String) (m : String)
    (hex : fs.fexists (absPath filePath) = true)
    (hext : lowerStr (splitExt (absPath filePath)).2 = ".py")
    (hp : fs.pyParse (absPath filePath) = Except.ok modules)
    (hm : m ∈ modules)
    (hnores : fs.fexists (pyTarget (absPath filePath) m) = false) :
    m ∈ (detect_dependencies fs filePath []).possible_imports := by
  rw [detect_dependencies_py fs filePath [] hex hext]
  simp only [crossRef, crossRef_nil_tracked]
  rw [mem_dedupSort]
  simp only [List.nil_append]
  have hfold : detect_python_dependencies fs (absPath filePath) =
      modules.foldl (pyStep fs (absPath filePath)) ([], modules) := by
    simp [detect_python_dependencies, hp]
  rw [hfold]
  exact pyfold_keep fs (absPath filePath) m hnores modules ([], modules) hm

theorem stdlib_names_kept_witness :
    "os" ∈ (detect_dependencies fsOs "/proj/a.py" []).possible_imports :=
  stdlib_names_kept fsOs "/proj/a.py" ["os"] "os" (by decide) (by decide) rfl
    (by decide) (by decide)

/-- C4 counterexample: a state reachable by the system's own operations —
rank `/p/a.py` and `/q/b.py` while both exist, delete `/q/b.py` from disk,
then rescan `/p/a.py` (whose text holds `import b`) — ends with
`/q/b.py` in the imports of `/p/a.py` although it did not exist on disk at
the time of that scan: the cross-reference matcher performs no existence
check on tracked files. -/
theorem stale_import_cex :
    getAL staleState.dependencies "/p/a.py" = some ⟨["/q/b.py"], []⟩ ∧
    fsScan.fexists "/q/b.py" = false := by
  refine ⟨?_, by decide⟩
  decide

/-- C4 (amended): for a Python file, every certain import produced by a
scan either existed on disk at scan time (per-language resolution checks
existence) or is a tracked-file path promoted by the cross-reference
matcher, which performs no existence check — so imports may retain
tracked paths already deleted from disk. -/
theorem imports_exist_or_tracked (fs : FS) (filePath : String)
    (tracked : List String) (p : String)
    (hext : lowerStr (splitExt (absPath filePath)).2 = ".py")
    (hp : p ∈ (detect_dependencies fs filePath tracked).imports) :
    fs.fexists p = true ∨ p ∈ tracked := by
  by_cases hex : fs.fexists (absPath filePath) = false
  · simp [detect_dependencies, hex] at hp
  · have hex' : fs.fexists (absPath filePath) = true := by
      cases hfe : fs.fexists (absPath filePath)
      · exact absurd hfe hex
      · rfl
    rw [detect_dependencies_py fs filePath tracked hex' hext] at hp
    simp only at hp
    rw [mem_dedupSort] at hp
    rcases (crfold_spec tracked
        (detect_python_dependencies fs (absPath filePath)).2
        ((detect_python_dependencies fs (absPath filePath)).1, [])).2.2 p hp with h | h
    · exact Or.inl (py_certain_exists fs (absPath filePath) p h)
    · exact Or.inr h

theorem imports_exist_or_tracked_witness :
    fsScan.fexists "/q/b.py" = true ∨ "/q/b.py" ∈ ["/p/a.py", "/q/b.py"] :=
  imports_exist_or_tracked fsScan "/p/a.py" ["/p/a.py", "/q/b.py"] "/q/b.py"
    (by decide) (by decide)

theorem scanfold_spec (fs : FS) (tracked : List String) :
    ∀ (keys : List String) (acc : Store × ScanAgg),
      (keys.foldl (scanStep fs tracked) acc).1.files = acc.1.files ∧
      (keys.foldl (scanStep fs tracked) acc).2.updated_files =
        acc.2.updated_files ++ keys.filter (fun p => fs.fexists p) ∧
      (keys.foldl (scanStep fs tracked) acc).2.total_imports =
        acc.2.total_imports +
          ((keys.filter (fun p => fs.fexists p)).map
            (fun p => (detect_dependencies fs p tracked).imports.length)).sum ∧
      (keys.foldl (scanStep fs tracked) acc).2.total_possible_imports =
        acc.2.total_possible_imports +
          ((keys.filter (fun p => fs.fexists p)).map
            (fun p => (detect_dependencies fs p tracked).possible_imports.length)).sum ∧
      ∀ (q : String),
        getAL (keys.foldl (scanStep fs tracked) acc).1.dependencies q =
          if q ∈ keys.filter (fun p => fs.fexists p) then
            some ⟨(detect_dependencies fs q tracked).imports,
                  (detect_dependencies fs q tracked).possible_imports⟩
          else getAL acc.1.dependencies q := by
  intro keys
  induction keys with
  | nil =>
    intro acc
    simp
  | cons k rest ih =>
    intro acc
    simp only [List.foldl_cons]
    by_cases hf : fs.fexists k = true
    · obtain ⟨ih1, ih2, ih3, ih4, ih5⟩ := ih (scanStep fs tracked acc k)
      have hfiles : (scanStep fs tracked acc k).1.files = acc.1.files := by
        simp [scanStep, hf]
      have hdeps : (scanStep fs tracked acc k).1.dependencies =
          setAL acc.1.dependencies k
            ⟨(detect_dependencies fs k tracked).imports,
             (detect_dependencies fs k tracked).possible_imports⟩ := by
        simp [scanStep, hf]
      have hup : (scanStep fs tracked acc k).2.updated_files =
          acc.2.updated_files ++ [k] := by
        simp [scanStep, hf]
      have hti : (scanStep fs tracked acc k).2.total_imports =
          acc.2.total_imports + (detect_dependencies fs k tracked).imports.length := by
        simp [scanStep, hf]
      have htp : (scanStep fs tracked acc k).2.total_possible_imports =
          acc.2.total_possible_imports +
            (detect_dependencies fs k tracked).possible_imports.length := by
        simp [scanStep, hf]
      refine ⟨?_, ?_, ?_, ?_, ?_⟩
      · rw [ih1, hfiles]
      · rw [ih2, hup]
        simp [List.filter_cons, hf]
      · rw [ih3, hti]
        simp only [List.filter_cons, hf, if_true, List.map_cons, List.sum_cons]
        omega
      · rw [ih4, htp]
        simp only [List.filter_cons, hf, if_true, List.map_cons, List.sum_cons]
        omega
      · intro q
        rw [ih5 q]
        by_cases hq : q ∈ rest.filter (fun p => fs.fexists p)
        · have hmem : q ∈ (k :: rest).filter (fun p => fs.fexists p) := by
            simp only [List.filter_cons, hf, if_true]
            exact List.mem_cons_of_mem _ hq
          rw [if_pos hq, if_pos hmem]
        · rw [if_neg hq, hdeps, getAL_setAL]
          by_cases hqk : q = k
          · subst hqk
            have hmem : q ∈ (q :: rest).filter (fun p => fs.fexists p) := by
              simp only [List.filter_cons, hf, if_true]
              exact List.mem_cons_self q _
            rw [if_pos rfl, if_pos hmem]
          · have hnm : q ∉ (k :: rest).filter (fun p => fs.fexists p) := by
              intro hcon
              simp only [List.filter_cons, hf, if_true] at hcon
              rcases List.mem_cons.mp hcon with h | h
              · exact hqk h
              · exact hq h
            rw [if_neg hqk, if_neg hnm]
    · have hstep : scanStep fs tracked acc k = acc := by
        have hf0 : fs.fexists k = false := by
          cases hfe : fs.fexists k
          · rfl
          · exact absurd hfe hf
        simp [scanStep, hf0]
      rw [hstep]
      have hfilter : (k :: rest).filter (fun p => fs.fexists p) =
          rest.filter (fun p => fs.fexists p) := by
        simp only [List.filter_cons]
        rw [if_neg hf]
      rw [hfilter]
      exact ih acc

/-- C7: `scan_all_dependencies` updates a dependency record exactly for
every ranked file still on disk (in store order), silently skips ranked
files missing from the filesystem and leaves their records untouched, and
its aggregates equal the sums over the updated files. -/
theorem scan_all_dependencies_spec (fs : FS) (s : Store) (hne : s.files ≠ []) :
    ∃ agg, (scan_all_dependencies fs s).2 = some agg ∧
      agg.updated_files =
        (s.files.map (fun kv => kv.1)).filter (fun p => fs.fexists p) ∧
      agg.total_imports = (agg.updated_files.map (fun p =>
        (detect_dependencies fs p (s.files.map (fun kv => kv.1))).imports.length)).sum ∧
      agg.total_possible_imports = (agg.updated_files.map (fun p =>
        (detect_dependencies fs p (s.files.map (fun kv => kv.1))).possible_imports.length)).sum ∧
      (∀ p ∈ agg.updated_files,
        getAL (scan_all_dependencies fs s).1.dependencies p =
          some ⟨(detect_dependencies fs p (s.files.map (fun kv => kv.1))).imports,
                (detect_dependencies fs p (s.files.map (fun kv => kv.1))).possible_imports⟩) ∧
      (∀ p, p ∉ agg.updated_files →
        getAL (scan_all_dependencies fs s).1.dependencies p =
          getAL s.dependencies p) ∧
      (scan_all_dependencies fs s).1.files = s.files := by
  have h0 : s.files.isEmpty = false := by
    cases hsf : s.files with
    | nil => exact absurd hsf hne
    | cons a l => rfl
  have hs : scan_all_dependencies fs s =
      (((s.files.map (fun kv => kv.1)).foldl
          (scanStep fs (s.files.map (fun kv => kv.1))) (s, ⟨[], 0, 0⟩)).1,
       some ((s.files.map (fun kv => kv.1)).foldl
          (scanStep fs (s.files.map (fun kv => kv.1))) (s, ⟨[], 0, 0⟩)).2) := by
    simp [scan_all_dependencies, h0]
  obtain ⟨h1, h2, h3, h4, h5⟩ := scanfold_spec fs (s.files.map (fun kv => kv.1))
    (s.files.map (fun kv => kv.1)) (s, ⟨[], 0, 0⟩)
  rw [hs]
  refine ⟨_, rfl, ?_, ?_, ?_, ?_, ?_, ?_⟩
  · simpa using h2
  · rw [h3, h2]
    simp
  · rw [h4, h2]
    simp
  · intro p hp
    rw [h5 p, if_pos]
    rw [h2] at hp
    simpa using hp
  · intro p hp
    rw [h5 p, if_neg]
    rw [h2] at hp
    simpa using hp
  · exact h1

theorem scan_all_dependencies_spec_witness :
    ∃ agg, (scan_all_dependencies fsScan sScanW).2 = some agg ∧
      agg.updated_files =
        (sScanW.files.map (fun kv => kv.1)).filter (fun p => fsScan.fexists p) ∧
      agg.total_imports = (agg.updated_files.map (fun p =>
        (detect_dependencies fsScan p (sScanW.files.map (fun kv => kv.1))).imports.length)).sum ∧
      agg.total_possible_imports = (agg.updated_files.map (fun p =>
        (detect_dependencies fsScan p (sScanW.files.map (fun kv => kv.1))).possible_imports.length)).sum ∧
      (∀ p ∈ agg.updated_files,
        getAL (scan_all_dependencies fsScan sScanW).1.dependencies p =
          some ⟨(detect_dependencies fsScan p (sScanW.files.map (fun kv => kv.1))).imports,
                (detect_dependencies fsScan p (sScanW.files.map (fun kv => kv.1))).possible_imports⟩) ∧
      (∀ p, p ∉ agg.updated_files →
        getAL (scan_all_dependencies fsScan sScanW).1.dependencies p =
          getAL sScanW.dependencies p) ∧
      (scan_all_dependencies fsScan sScanW).1.files = sScanW.files :=
  scan_all_dependencies_spec fsScan sScanW (by decide)

/-- C8: dependency detection never raises — it is a total function — and a
parse failure is isolated: for a Python file whose parse fails, the scan
result is the empty record, and during a batch scan every existing ranked
file is still processed (one file's detection failure cannot abort the
batch, whose updated list depends only on existence of the ranked files). -/
theorem detection_failure_isolated (fs : FS) (filePath : String)
    (tracked : List String) (e : Unit) (s : Store) (p : String)
    (hext : lowerStr (splitExt (absPath filePath)).2 = ".py")
    (hp : fs.pyParse (absPath filePath) = Except.error e) :
    detect_dependencies fs filePath tracked = ⟨[], []⟩ ∧
    (s.files ≠ [] → p ∈ s.files.map (fun kv => kv.1) → fs.fexists p = true →
      ∃ agg, (scan_all_dependencies fs s).2 = some agg ∧
        p ∈ agg.updated_files) := by
  constructor
  · by_cases hex : fs.fexists (absPath filePath) = false
    · simp [detect_dependencies, hex]
    · have hex' : fs.fexists (absPath filePath) = true := by
        cases hfe : fs.fexists (absPath filePath)
        · exact absurd hfe hex
        · rfl
      rw [detect_dependencies_py fs filePath tracked hex' hext]
      have hpy : detect_python_dependencies fs (absPath filePath) = ([], []) := by
        simp [detect_python_dependencies, hp]
      rw [hpy]
      rfl
  · intro hne hmem hexp
    have h0 : s.files.isEmpty = false := by
      cases hsf : s.files with
      | nil => exact absurd hsf hne
      | cons a l => rfl
    have hs : (scan_all_dependencies fs s).2 =
        some ((s.files.map (fun kv => kv.1)).foldl
          (scanStep fs (s.files.map (fun kv => kv.1))) (s, ⟨[], 0, 0⟩)).2 := by
      simp [scan_all_dependencies, h0]
    refine ⟨_, hs, ?_⟩
    obtain ⟨_, h2, _⟩ := scanfold_spec fs (s.files.map (fun kv => kv.1))
      (s.files.map (fun kv => kv.1)) (s, ⟨[], 0, 0⟩)
    rw [h2]
    simp only [List.nil_append, List.mem_filter]
    exact ⟨hmem, hexp⟩

theorem detection_failure_isolated_witness :
    detect_dependencies fsErr "/e.py" [] = ⟨[], []⟩ ∧
    ∃ agg, (scan_all_dependencies fsErr sErr).2 = some agg ∧
      "/e.py" ∈ agg.updated_files :=
  ⟨(detection_failure_isolated fsErr "/e.py" [] () sErr "/e.py"
      (by decide) rfl).1,
   (detection_failure_isolated fsErr "/e.py" [] () sErr "/e.py"
      (by decide) rfl).2 (by decide) (by decide) (by decide)⟩

theorem btF_visited_mono :
    ∀ (fuel : Nat) (s : Store) (maxDepth depth : Nat) (path pfx : String)
      (visited : List String) (v : String), v ∈ visited →
      v ∈ (btF fuel s maxDepth depth path pfx visited).2 := by
  intro fuel
  induction fuel with
  | zero =>
    intro s maxDepth depth path pfx visited v hv
    simpa [btF] using hv
  | succ fuel ih =>
    intro s maxDepth depth path pfx visited v hv
    simp only [btF]
    by_cases hg : maxDepth < depth ∨ visited.contains path
    · rw [if_pos hg]
      exact hv
    · rw [if_neg hg]
      cases hAL : getAL s.dependencies path with
      | none =>
        simpa using Or.inr hv
      | some r =>
        simp only
        have hfold : ∀ (ds : List String) (acc : List TreeLine × List String × Nat),
            v ∈ acc.2.1 →
            v ∈ (ds.foldl (btFStep (btF fuel) s maxDepth depth pfx
              (sortByRank s r.imports).length) acc).2.1 := by
          intro ds
          induction ds with
          | nil => intro acc h; simpa using h
          | cons d rest ihds =>
            intro acc h
            simp only [List.foldl_cons]
            apply ihds
            simp only [btFStep]
            by_cases hc : acc.2.1.contains d
            · simp only [hc, if_pos]
              exact h
            · simp only [hc, Bool.false_eq_true, if_false]
              by_cases he : (btF fuel s maxDepth (depth + 1) d
                  (pfx ++ (pfx ++ (if acc.2.2 = (sortByRank s r.imports).length - 1
                    then "    " else "│   "))) acc.2.1).1.isEmpty
              · simp only [he, if_pos]
                exact ih s maxDepth (depth + 1) d _ acc.2.1 v h
              · simp only [he, Bool.false_eq_true, if_false]
                exact ih s maxDepth (depth + 1) d _ acc.2.1 v h
        exact hfold _ _ (List.mem_cons_of_mem _ hv)

/-- C9: the tree-building recursion of `visualize_dependencies` terminates
(it is a well-founded definition), a call past `maxDepth` or on an
already-visited node emits nothing and recurses no further, and the visited
set only grows along the traversal, so each file is expanded at most once
per traversal. -/
theorem build_tree_bounded (s : Store) (maxDepth depth : Nat)
    (path pfx : String) (visited : List String) :
    ((maxDepth < depth ∨ path ∈ visited) →
      build_tree s maxDepth depth path pfx visited = ([], visited)) ∧
    (∀ v ∈ visited, v ∈ (build_tree s maxDepth depth path pfx visited).2) := by
  constructor
  · intro h
    have hg : maxDepth < depth ∨ visited.contains path = true := by
      rcases h with h | h
      · exact Or.inl h
      · exact Or.inr (by simpa using h)
    simp only [build_tree]
    rw [dif_pos hg]
  · intro v hv
    rw [build_tree_eq_btF (maxDepth + 1 - depth) s maxDepth depth path pfx
      visited (le_refl _)]
    exact btF_visited_mono (maxDepth + 1 - depth) s maxDepth depth path pfx
      visited v hv

theorem build_tree_bounded_witness :
    build_tree sAB 5 7 "/a.py" "" [] = ([], []) ∧
    "/z.py" ∈ (build_tree sAB 5 0 "/a.py" "" ["/z.py"]).2 :=
  ⟨(build_tree_bounded sAB 5 7 "/a.py" "" []).1 (Or.inl (by omega)),
   (build_tree_bounded sAB 5 0 "/a.py" "" ["/z.py"]).2 "/z.py" (by decide)⟩

/-- C1 counterexample: for the 2-file mutual-import cycle `/a.py` ↔
`/b.py`, `visualize_dependencies("/a.py", 5)` renders `/b.py` exactly once
(expanded), not twice: the revisited node is omitted entirely — the
`dep not in visited` guard skips it before the leaf-rendering branch can
run — so no repeated leaf line appears. -/
theorem cycle_repeat_rendered_cex :
    visualize_dependencies fsAB sAB "/a.py" 5 =
      .ok [⟨"", "├── ", "/a.py", none⟩, ⟨"    ", "├── ", "/b.py", none⟩]
        ["/b.py"] ⟨5, 1, 0, 1⟩ ∧
    ¬ ((([⟨"", "├── ", "/a.py", none⟩,
          ⟨"    ", "├── ", "/b.py", none⟩] : List TreeLine).filter
        (fun l => l.path == "/b.py")).length = 2) := by
  constructor
  · simp only [visualize_dependencies]
    rw [build_tree_eq_btF 6 sAB 5 0 (absPath "/a.py") "" [] (by omega)]
    decide
  · decide

/-- C1 (amended): a dependency node already in the visited set of the
current traversal is omitted from the output entirely — no line and no
recursion (only a depth-limited child is rendered as a terminal leaf); in
particular, for the 2-file mutual-import cycle, `visualize(A, maxDepth=5)`
terminates and renders B exactly once (expanded) and renders no node
twice. -/
theorem visited_dep_omitted (s : Store) (maxDepth depth : Nat)
    (pfx : String) (total i : Nat) (dep : String)
    (rest visited : List String) (h : dep ∈ visited) :
    build_children s maxDepth depth pfx total i (dep :: rest) visited =
      build_children s maxDepth depth pfx total (i + 1) rest visited ∧
    ∃ tree deps stats,
      visualize_dependencies fsAB sAB "/a.py" 5 = .ok tree deps stats ∧
      (tree.filter (fun l => l.path == "/b.py")).length = 1 ∧
      (tree.filter (fun l => l.path == "/a.py")).length = 1 := by
  constructor
  · have hc : visited.contains dep = true := by simpa using h
    simp only [build_children, hc, if_pos]
    simp
  · refine ⟨[⟨"", "├── ", "/a.py", none⟩, ⟨"    ", "├── ", "/b.py", none⟩],
      ["/b.py"], ⟨5, 1, 0, 1⟩, ?_, by decide, by decide⟩
    simp only [visualize_dependencies]
    rw [build_tree_eq_btF 6 sAB 5 0 (absPath "/a.py") "" [] (by omega)]
    decide

theorem visited_dep_omitted_witness :
    build_children sAB 5 0 "" 1 0 ["/a.py"] ["/a.py", "/b.py"] =
      build_children sAB 5 0 "" 1 1 [] ["/a.py", "/b.py"] ∧
    ∃ tree deps stats,
      visualize_dependencies fsAB sAB "/a.py" 5 = .ok tree deps stats ∧
      (tree.filter (fun l => l.path == "/b.py")).length = 1 ∧
      (tree.filter (fun l => l.path == "/a.py")).length = 1 :=
  visited_dep_omitted sAB 5 0 "" 1 0 "/a.py" [] ["/a.py", "/b.py"] (by decide)
